import Mathlib

/-!
Verification of the SVD loader core against its specification.

The embedded code is the script SVD-Loader.py. The core pieces are:
- the MemoryRegion class and reduce_memory_regions (lines 21 to 52),
- calculate_peripheral_size (lines 55 to 60),
- the memory-region construction loop (lines 102 to 130),
- the register type selection and the structure generation loop
  (lines 155 to 203).

The script runs under Jython 2.7, so the division operator on integers is
floor division; all address arithmetic is on nonnegative integers and is
modelled with Nat. The Python attribute named end is a Lean keyword and
is rendered as the field end_.
-/

/-- Embedding of the MemoryRegion class (lines 21 to 29): a labeled
address interval. The length method is end - start, so the interval is
half open, covering the addresses a with start ≤ a < end. -/
structure MemoryRegion where
  name : String
  start : Nat
  end_ : Nat
deriving DecidableEq, Inhabited

/-- The length method of MemoryRegion (line 28 to 29). -/
def MemoryRegion.length (r : MemoryRegion) : Nat := r.end_ - r.start

/-- The overlap test used by reduce_memory_regions (lines 40 to 43): the
pair is skipped when r1.end < r2.start or when r2.end < r1.start, so two
regions are merged exactly when neither strict inequality holds. -/
def overlapsTouch (r1 r2 : MemoryRegion) : Bool :=
  !(r1.end_ < r2.start || r2.end_ < r1.start)

/-- The merged region built in lines 47 to 49: componentwise min of the
starts, max of the ends, and the underscore joined names. -/
def mergeRegions (r1 r2 : MemoryRegion) : MemoryRegion :=
  { name := r1.name ++ "_" ++ r2.name
    start := min r1.start r2.start
    end_ := max r1.end_ r2.end_ }

/-- The inner scan of reduce_memory_regions (lines 35 to 43): for a fixed
row index i with region r1, find the first column index j with i ≠ j such
that r1 and the region at j overlap or touch. -/
def firstMergeJ (rs : List MemoryRegion) (r1 : MemoryRegion) (i : Nat) : Option Nat :=
  (List.range rs.length).find? (fun j => i != j && overlapsTouch r1 (rs.getD j default))

/-- The full scan of reduce_memory_regions (lines 33 to 43): the first
pair (i, j) in lexicographic scan order, with i ≠ j, whose regions
overlap or touch. -/
def firstMerge (rs : List MemoryRegion) : Option (Nat × Nat) :=
  ((List.range rs.length).find?
      (fun i => (firstMergeJ rs (rs.getD i default) i).isSome)).bind
    (fun i => (firstMergeJ rs (rs.getD i default) i).map (fun j => (i, j)))

/-- One merge step of reduce_memory_regions (lines 47 to 50): the region
at index i is overwritten in place with the merged region, then the
region object at index j is removed from the list. -/
def mergeAt (rs : List MemoryRegion) (i j : Nat) : List MemoryRegion :=
  (rs.set i (mergeRegions (rs.getD i default) (rs.getD j default))).eraseIdx j

/-- List.getD after set at the same index. -/
theorem getD_set_self (l : List α) (i : Nat) (a d : α) (h : i < l.length) :
    (l.set i a).getD i d = a := by
  induction l generalizing i with
  | nil => simp at h
  | cons hd tl ih =>
    cases i with
    | zero => rfl
    | succ i => exact ih i (by simpa using h)

/-- List.getD after set at a different index. -/
theorem getD_set_ne (l : List α) (i k : Nat) (a d : α) (h : i ≠ k) :
    (l.set i a).getD k d = l.getD k d := by
  induction l generalizing i k with
  | nil => rfl
  | cons hd tl ih =>
    cases i with
    | zero =>
      cases k with
      | zero => exact absurd rfl h
      | succ k => rfl
    | succ i =>
      cases k with
      | zero => rfl
      | succ k => exact ih i k (by omega)

/-- List.getD after eraseIdx, below the erased index. -/
theorem getD_eraseIdx_of_lt (l : List α) (j k : Nat) (d : α) (h : k < j) :
    (l.eraseIdx j).getD k d = l.getD k d := by
  induction l generalizing j k with
  | nil => rfl
  | cons hd tl ih =>
    cases j with
    | zero => omega
    | succ j =>
      cases k with
      | zero => rfl
      | succ k => exact ih j k (by omega)

/-- List.getD after eraseIdx, at or above the erased index: entries shift
down by one. -/
theorem getD_eraseIdx_of_ge (l : List α) (j k : Nat) (d : α) (h : j ≤ k) :
    (l.eraseIdx j).getD k d = l.getD (k + 1) d := by
  induction l generalizing j k with
  | nil => rfl
  | cons hd tl ih =>
    cases j with
    | zero => rfl
    | succ j =>
      cases k with
      | zero => omega
      | succ k => exact ih j k (by omega)

/-- Erasing a valid index shortens the list by exactly one. -/
theorem length_eraseIdx_add_one (l : List α) (j : Nat) (h : j < l.length) :
    (l.eraseIdx j).length + 1 = l.length := by
  induction l generalizing j with
  | nil => simp at h
  | cons hd tl ih =>
    cases j with
    | zero => simp
    | succ j =>
      have := ih j (by simpa using h)
      simpa using this

/-- Membership characterised through List.getD at valid indices. -/
theorem mem_iff_getD (l : List α) (d : α) (r : α) :
    r ∈ l ↔ ∃ k, k < l.length ∧ l.getD k d = r := by
  induction l with
  | nil => simp
  | cons hd tl ih =>
    simp only [List.mem_cons, ih]
    constructor
    · rintro (rfl | ⟨k, hk, hget⟩)
      · exact ⟨0, by simp, rfl⟩
      · exact ⟨k + 1, by simpa using hk, hget⟩
    · rintro ⟨k, hk, hget⟩
      cases k with
      | zero => exact Or.inl hget.symm
      | succ k => exact Or.inr ⟨k, by simpa using hk, hget⟩

/-- Soundness of the inner scan: a hit names a valid distinct index whose
region overlaps or touches r1. -/
theorem firstMergeJ_eq_some {rs : List MemoryRegion} {r1 : MemoryRegion} {i j : Nat}
    (h : firstMergeJ rs r1 i = some j) :
    j < rs.length ∧ i ≠ j ∧ overlapsTouch r1 (rs.getD j default) = true := by
  have hmem := List.mem_of_find?_eq_some h
  have hp := List.find?_some h
  rw [List.mem_range] at hmem
  simp only [Bool.and_eq_true, bne_iff_ne, ne_eq] at hp
  exact ⟨hmem, hp.1, hp.2⟩

/-- Completeness of the inner scan: a miss means no distinct valid index
overlaps or touches r1. -/
theorem firstMergeJ_eq_none {rs : List MemoryRegion} {r1 : MemoryRegion} {i : Nat}
    (h : firstMergeJ rs r1 i = none) :
    ∀ j, j < rs.length → i ≠ j → overlapsTouch r1 (rs.getD j default) = false := by
  intro j hj hij
  have hm := List.find?_eq_none.mp h j (List.mem_range.mpr hj)
  simp only [Bool.and_eq_true, bne_iff_ne, ne_eq, not_and] at hm
  cases hc : overlapsTouch r1 (rs.getD j default) with
  | false => rfl
  | true => exact absurd hc (hm hij)

/-- Soundness of the full scan: a hit is a valid pair of distinct indices
whose regions overlap or touch. -/
theorem firstMerge_eq_some {rs : List MemoryRegion} {i j : Nat}
    (h : firstMerge rs = some (i, j)) :
    i < rs.length ∧ j < rs.length ∧ i ≠ j ∧
      overlapsTouch (rs.getD i default) (rs.getD j default) = true := by
  unfold firstMerge at h
  cases hf : (List.range rs.length).find?
      (fun i => (firstMergeJ rs (rs.getD i default) i).isSome) with
  | none => rw [hf] at h; simp at h
  | some i0 =>
    rw [hf] at h
    simp only [Option.some_bind, Option.map_eq_some'] at h
    obtain ⟨j0, hj0, heq⟩ := h
    have hij : i0 = i ∧ j0 = j := by
      constructor <;> [exact congrArg Prod.fst heq; exact congrArg Prod.snd heq]
    obtain ⟨rfl, rfl⟩ := hij
    have hi0 : i0 < rs.length := List.mem_range.mp (List.mem_of_find?_eq_some hf)
    have hspec := firstMergeJ_eq_some hj0
    exact ⟨hi0, hspec.1, hspec.2.1, hspec.2.2⟩

/-- Completeness of the full scan: a miss means no pair of distinct valid
indices overlaps or touches, which is the fixpoint condition of
reduce_memory_regions. -/
theorem firstMerge_eq_none {rs : List MemoryRegion}
    (h : firstMerge rs = none) :
    ∀ i j, i < rs.length → j < rs.length → i ≠ j →
      overlapsTouch (rs.getD i default) (rs.getD j default) = false := by
  intro i j hi hj hij
  unfold firstMerge at h
  cases hf : (List.range rs.length).find?
      (fun i => (firstMergeJ rs (rs.getD i default) i).isSome) with
  | some i0 =>
    have hp := List.find?_some hf
    rw [hf] at h
    simp only [Option.some_bind, Option.map_eq_none'] at h
    rw [h] at hp
    simp at hp
  | none =>
    have hfn := List.find?_eq_none.mp hf i (List.mem_range.mpr hi)
    have hnone : firstMergeJ rs (rs.getD i default) i = none := by
      cases hc : firstMergeJ rs (rs.getD i default) i with
      | none => rfl
      | some j0 => rw [hc] at hfn; simp at hfn
    exact firstMergeJ_eq_none hnone j hj hij

/-- A merge step removes exactly one region from the list. -/
theorem length_mergeAt {rs : List MemoryRegion} {i j : Nat}
    (h : firstMerge rs = some (i, j)) :
    (mergeAt rs i j).length + 1 = rs.length := by
  obtain ⟨hi, hj, hij, hov⟩ := firstMerge_eq_some h
  unfold mergeAt
  rw [length_eraseIdx_add_one]
  · simp
  · simpa using hj

/-- Embedding of reduce_memory_regions (lines 32 to 52): scan for the
first overlapping or touching pair, merge it in place, drop the absorbed
region and recurse; return the list unchanged once no pair overlaps.
Termination: every merge step removes one region. -/
def reduce_memory_regions (rs : List MemoryRegion) : List MemoryRegion :=
  match h : firstMerge rs with
  | none => rs
  | some (i, j) => reduce_memory_regions (mergeAt rs i j)
termination_by rs.length
decreasing_by
  have := length_mergeAt h
  omega

/-- The number of merge steps performed by reduce_memory_regions. -/
def reduce_steps (rs : List MemoryRegion) : Nat :=
  match h : firstMerge rs with
  | none => 0
  | some (i, j) => reduce_steps (mergeAt rs i j) + 1
termination_by rs.length
decreasing_by
  have := length_mergeAt h
  omega

/-- Unfolding lemma for the fixpoint branch. -/
theorem reduce_eq_of_none {rs : List MemoryRegion} (h : firstMerge rs = none) :
    reduce_memory_regions rs = rs := by
  rw [reduce_memory_regions.eq_def]
  split
  · rfl
  · rename_i i j hsome
    rw [h] at hsome
    cases hsome

/-- Unfolding lemma for the merge branch. -/
theorem reduce_eq_of_some {rs : List MemoryRegion} {i j : Nat}
    (h : firstMerge rs = some (i, j)) :
    reduce_memory_regions rs = reduce_memory_regions (mergeAt rs i j) := by
  rw [reduce_memory_regions.eq_def]
  split
  · rename_i hnone
    rw [h] at hnone
    cases hnone
  · rename_i i0 j0 hsome
    rw [h] at hsome
    cases hsome
    rfl

/-- An address a lies in the half open interval of region r. -/
def coveredBy (a : Nat) (r : MemoryRegion) : Prop :=
  r.start ≤ a ∧ a < r.end_

instance (a : Nat) (r : MemoryRegion) : Decidable (coveredBy a r) := by
  unfold coveredBy; infer_instance

/-- An address a is covered by some region of the list. -/
def covered (a : Nat) (rs : List MemoryRegion) : Prop :=
  ∃ r ∈ rs, coveredBy a r

instance (a : Nat) (rs : List MemoryRegion) : Decidable (covered a rs) := by
  unfold covered; infer_instance

/-- Elementwise description of a merge step: the new list holds the merged
region together with precisely the regions at indices other than i and j. -/
theorem mem_mergeAt_iff {rs : List MemoryRegion} {i j : Nat}
    (hi : i < rs.length) (hj : j < rs.length) (hij : i ≠ j) (r : MemoryRegion) :
    r ∈ mergeAt rs i j ↔
      (r = mergeRegions (rs.getD i default) (rs.getD j default) ∨
        ∃ k, k < rs.length ∧ k ≠ i ∧ k ≠ j ∧ rs.getD k default = r) := by
  have hlen : (mergeAt rs i j).length + 1 = rs.length := by
    unfold mergeAt
    rw [length_eraseIdx_add_one]
    · simp
    · simpa using hj
  rw [mem_iff_getD (mergeAt rs i j) default r]
  unfold mergeAt
  constructor
  · rintro ⟨k, hk, hget⟩
    by_cases hkj : k < j
    · rw [getD_eraseIdx_of_lt _ _ _ _ hkj] at hget
      by_cases hki : k = i
      · subst hki
        rw [getD_set_self _ _ _ _ hi] at hget
        exact Or.inl hget.symm
      · rw [getD_set_ne _ _ _ _ _ (fun hh => hki hh.symm)] at hget
        exact Or.inr ⟨k, by omega, hki, by omega, hget⟩
    · rw [getD_eraseIdx_of_ge _ _ _ _ (by omega)] at hget
      by_cases hki : k + 1 = i
      · subst hki
        rw [getD_set_self _ _ _ _ hi] at hget
        exact Or.inl hget.symm
      · rw [getD_set_ne _ _ _ _ _ (fun hh => hki hh.symm)] at hget
        refine Or.inr ⟨k + 1, ?_, hki, by omega, hget⟩
        unfold mergeAt at hlen
        omega
  · rintro (rfl | ⟨k, hk, hki, hkj, hget⟩)
    · by_cases hij2 : i < j
      · refine ⟨i, by unfold mergeAt at hlen; omega, ?_⟩
        rw [getD_eraseIdx_of_lt _ _ _ _ hij2]
        exact getD_set_self _ _ _ _ hi
      · refine ⟨i - 1, by unfold mergeAt at hlen; omega, ?_⟩
        rw [getD_eraseIdx_of_ge _ _ _ _ (by omega)]
        have : i - 1 + 1 = i := by omega
        rw [this]
        exact getD_set_self _ _ _ _ hi
    · by_cases hkj2 : k < j
      · refine ⟨k, by unfold mergeAt at hlen; omega, ?_⟩
        rw [getD_eraseIdx_of_lt _ _ _ _ hkj2]
        rw [getD_set_ne _ _ _ _ _ (fun hh => hki hh.symm)]
        exact hget
      · refine ⟨k - 1, by unfold mergeAt at hlen; omega, ?_⟩
        rw [getD_eraseIdx_of_ge _ _ _ _ (by omega)]
        have : k - 1 + 1 = k := by omega
        rw [this]
        rw [getD_set_ne _ _ _ _ _ (fun hh => hki hh.symm)]
        exact hget

/-- A merge step preserves the set of covered addresses: the merged
interval covers exactly the union of the two absorbed intervals, because
the merge only fires on overlapping or touching pairs. -/
theorem covered_mergeAt {rs : List MemoryRegion} {i j : Nat}
    (h : firstMerge rs = some (i, j)) (a : Nat) :
    covered a (mergeAt rs i j) ↔ covered a rs := by
  obtain ⟨hi, hj, hij, hov⟩ := firstMerge_eq_some h
  have hovP : (rs.getD j default).start ≤ (rs.getD i default).end_ ∧
      (rs.getD i default).start ≤ (rs.getD j default).end_ := by
    unfold overlapsTouch at hov
    simp only [Bool.not_eq_eq_eq_not, Bool.not_true, Bool.or_eq_false_iff,
      decide_eq_false_iff_not, not_lt] at hov
    exact ⟨hov.1, hov.2⟩
  constructor
  · rintro ⟨r, hr, hcov⟩
    rw [mem_mergeAt_iff hi hj hij] at hr
    rcases hr with rfl | ⟨k, hk, hki, hkj, hget⟩
    · unfold mergeRegions coveredBy at hcov
      simp only at hcov
      by_cases hc : coveredBy a (rs.getD i default)
      · exact ⟨rs.getD i default, (mem_iff_getD rs default _).mpr ⟨i, hi, rfl⟩, hc⟩
      · refine ⟨rs.getD j default, (mem_iff_getD rs default _).mpr ⟨j, hj, rfl⟩, ?_⟩
        unfold coveredBy at hc ⊢
        omega
    · exact ⟨r, (mem_iff_getD rs default _).mpr ⟨k, hk, hget⟩, hcov⟩
  · rintro ⟨r, hr, hcov⟩
    rw [mem_iff_getD rs default] at hr
    obtain ⟨k, hk, hget⟩ := hr
    by_cases hki : k = i
    · subst hki
      refine ⟨mergeRegions (rs.getD k default) (rs.getD j default),
        (mem_mergeAt_iff hk hj hij _).mpr (Or.inl rfl), ?_⟩
      rw [← hget] at hcov
      unfold coveredBy at hcov ⊢
      unfold mergeRegions
      dsimp only
      omega
    · by_cases hkj : k = j
      · subst hkj
        refine ⟨mergeRegions (rs.getD i default) (rs.getD k default),
          (mem_mergeAt_iff hi hk hij _).mpr (Or.inl rfl), ?_⟩
        rw [← hget] at hcov
        unfold coveredBy at hcov ⊢
        unfold mergeRegions
        dsimp only
        omega
      · exact ⟨r, (mem_mergeAt_iff hi hj hij _).mpr
          (Or.inr ⟨k, hk, hki, hkj, hget⟩), hcov⟩

/-- Reduction preserves the set of covered addresses, for arbitrary input. -/
theorem covered_reduce (rs : List MemoryRegion) (a : Nat) :
    covered a (reduce_memory_regions rs) ↔ covered a rs := by
  induction rs using reduce_memory_regions.induct with
  | case1 rs h => rw [reduce_eq_of_none h]
  | case2 rs i j h ih =>
    rw [reduce_eq_of_some h, ih]
    exact covered_mergeAt h a

/-- A merge step preserves wellformedness of the intervals. -/
theorem valid_mergeAt {rs : List MemoryRegion} {i j : Nat}
    (h : firstMerge rs = some (i, j))
    (hv : ∀ r ∈ rs, r.start ≤ r.end_) :
    ∀ r ∈ mergeAt rs i j, r.start ≤ r.end_ := by
  obtain ⟨hi, hj, hij, hov⟩ := firstMerge_eq_some h
  intro r hr
  rw [mem_mergeAt_iff hi hj hij] at hr
  rcases hr with rfl | ⟨k, hk, hki, hkj, hget⟩
  · have h1 := hv (rs.getD i default) ((mem_iff_getD rs default _).mpr ⟨i, hi, rfl⟩)
    have h2 := hv (rs.getD j default) ((mem_iff_getD rs default _).mpr ⟨j, hj, rfl⟩)
    unfold mergeRegions
    dsimp only
    omega
  · exact hv r ((mem_iff_getD rs default _).mpr ⟨k, hk, hget⟩)

/-- Reduction preserves wellformedness of the intervals. -/
theorem valid_reduce (rs : List MemoryRegion)
    (hv : ∀ r ∈ rs, r.start ≤ r.end_) :
    ∀ r ∈ reduce_memory_regions rs, r.start ≤ r.end_ := by
  induction rs using reduce_memory_regions.induct with
  | case1 rs h => rw [reduce_eq_of_none h]; exact hv
  | case2 rs i j h ih =>
    rw [reduce_eq_of_some h]
    exact ih (valid_mergeAt h hv)

/-- The output of reduction is a fixpoint of the scan: no overlapping or
touching pair remains. -/
theorem firstMerge_reduce (rs : List MemoryRegion) :
    firstMerge (reduce_memory_regions rs) = none := by
  induction rs using reduce_memory_regions.induct with
  | case1 rs h => rw [reduce_eq_of_none h]; exact h
  | case2 rs i j h ih => rw [reduce_eq_of_some h]; exact ih

/-- The number of merge steps is bounded by the input length. -/
theorem reduce_steps_le (rs : List MemoryRegion) :
    reduce_steps rs ≤ rs.length := by
  induction rs using reduce_steps.induct with
  | case1 rs h =>
    rw [reduce_steps.eq_def]
    split
    · omega
    · rename_i i j hsome
      rw [h] at hsome
      cases hsome
  | case2 rs i j h ih =>
    rw [reduce_steps.eq_def]
    split
    · omega
    · rename_i i0 j0 hsome
      rw [h] at hsome
      cases hsome
      have := length_mergeAt h
      omega

/-- Embedding of the address block record consumed at line 114: an offset
and a size relative to the peripheral base address. -/
structure AddressBlock where
  offset : Nat
  size : Nat
deriving DecidableEq, Inhabited

/-- Embedding of the register descriptor consumed by the script. The
field _size carries the optional explicit bit width, with none standing
for the Python value None. -/
structure Register where
  name : String
  description : String
  address_offset : Nat
  _size : Option Nat
deriving DecidableEq, Inhabited

/-- Embedding of the peripheral descriptor consumed by the script. -/
structure Peripheral where
  name : String
  base_address : Nat
  address_block : Option AddressBlock
  registers : List Register
deriving DecidableEq, Inhabited

/-- The effective register size chosen at lines 58, 122 and 179: the
Python test is the truthiness test not register._size, so both None and
an explicit size of 0 fall back to the default register size. -/
def register_effective_size (r : Register) (default_register_size : Nat) : Nat :=
  match r._size with
  | none => default_register_size
  | some s => if s = 0 then default_register_size else s

/-- Embedding of calculate_peripheral_size (lines 55 to 60): starting
from 0, take the running maximum of address_offset plus the effective
size in bytes, over the registers in list order. Division by 8 is floor
division. -/
def calculate_peripheral_size (p : Peripheral) (default_register_size : Nat) : Nat :=
  p.registers.foldl
    (fun size register =>
      max size (register.address_offset + register_effective_size register default_register_size / 8))
    0

/-- The four Ghidra data types that the register type selection at lines
181 to 188 can produce. -/
inductive DataType where
  | UnsignedIntegerDataType
  | ByteDataType
  | UnsignedShortDataType
  | UnsignedLongLongDataType
deriving DecidableEq, Inhabited

/-- Embedding of the register type selection (lines 179 to 188): with rs
the effective register size divided by 8, select byte for 1, short for
2, long long for 8, and the default unsigned integer otherwise. -/
def register_r_type (register_size : Nat) : DataType :=
  let rs := register_size / 8
  if rs = 1 then DataType.ByteDataType
  else if rs = 2 then DataType.UnsignedShortDataType
  else if rs = 8 then DataType.UnsignedLongLongDataType
  else DataType.UnsignedIntegerDataType

/-- The footprint formula in the words of the claim for
calculate_peripheral_size: the maximum over the registers of
address_offset plus effective size in bytes, where the effective size is
the explicit size whenever one is present and the default otherwise.
This differs from the code exactly when an explicit size of 0 bits is
present. -/
def claimed_effective_size (r : Register) (default_register_size : Nat) : Nat :=
  match r._size with
  | none => default_register_size
  | some s => s

/-- The footprint in the words of the claim, built on
claimed_effective_size. -/
def claimed_footprint (p : Peripheral) (default_register_size : Nat) : Nat :=
  (p.registers.map
    (fun r => r.address_offset + claimed_effective_size r default_register_size / 8)).foldr max 0

/-- The sum of register lengths in bytes accumulated by the elif branch
of the memory region construction loop (lines 119 to 124). -/
def registers_length_sum (rs : List Register) (default_register_size : Nat) : Nat :=
  rs.foldl (fun acc r => acc + register_effective_size r default_register_size / 8) 0

/-- Embedding of the memory region construction loop (lines 102 to 130).
The Python variable end is only assigned inside the two conditional
branches, so its value leaks from one iteration to the next; the second
argument carries the current binding of end, with none meaning that end
is not yet bound. A peripheral named _INTERRUPTS is skipped. When a
peripheral has an address block, end becomes base plus offset plus size;
otherwise when it has registers, end becomes base plus the summed
register lengths; otherwise end keeps its previous binding, and the
append of MemoryRegion raises a NameError when end was never bound,
which aborts the script and is modelled as the error case. -/
def memory_regions_loop (default_register_size : Nat) :
    List Peripheral → Option Nat → Except String (List MemoryRegion)
  | [], _ => Except.ok []
  | p :: ps, prev =>
    if p.name = "_INTERRUPTS" then memory_regions_loop default_register_size ps prev
    else
      let curr : Option Nat :=
        match p.address_block with
        | some ab => some (p.base_address + (ab.offset + ab.size))
        | none =>
          if p.registers.length > 0 then
            some (p.base_address + registers_length_sum p.registers default_register_size)
          else prev
      match curr with
      | none => Except.error "NameError: end is not defined"
      | some e =>
        (memory_regions_loop default_register_size ps (some e)).map
          (fun rest => MemoryRegion.mk p.name p.base_address e :: rest)

/-- Embedding of the structure generation loop (lines 155 to 203). The
loop body issues host API calls that can raise, and the try and except
around the body is commented out in the source (lines 166, 202 and 203),
so a raised exception propagates and aborts the whole loop. The oracle
genFails tells, by peripheral name, whether the host API raises while
generating that structure. The result collects the names of the
peripherals whose structures were generated; a peripheral without
registers or without an address block is skipped. -/
def generate_peripherals (genFails : String → Bool) :
    List Peripheral → Except String (List String)
  | [] => Except.ok []
  | p :: ps =>
    if p.registers.length = 0 then generate_peripherals genFails ps
    else if p.address_block.isNone then generate_peripherals genFails ps
    else if genFails p.name then Except.error p.name
    else (generate_peripherals genFails ps).map (fun rest => p.name :: rest)

/-- Folding a running maximum from an accumulator equals the maximum of
the accumulator and the maximum of the mapped list. -/
theorem foldl_max_eq (f : Register → Nat) (rs : List Register) (acc : Nat) :
    rs.foldl (fun s r => max s (f r)) acc = max acc ((rs.map f).foldr max 0) := by
  induction rs generalizing acc with
  | nil => simp
  | cons r rs ih =>
    rw [List.foldl_cons, ih, List.map_cons, List.foldr_cons]
    omega

/-- Claim C1. The claim states that a failure while generating one
peripheral structure does not prevent the next peripheral from being
processed. The code violates this: the try and except around the loop
body is commented out (lines 166, 202 and 203), so the first raised
exception aborts the loop. With two eligible peripherals where
generation of the first raises, the loop ends in the error and the
second peripheral is never processed, while with no failure both are
processed. -/
theorem c1_no_isolation_in_structure_loop :
    generate_peripherals (fun nm => nm == "PERIPH_A")
        [⟨"PERIPH_A", 1024, some ⟨0, 16⟩, [⟨"R0", "", 0, some 32⟩]⟩,
         ⟨"PERIPH_B", 2048, some ⟨0, 16⟩, [⟨"R0", "", 0, some 32⟩]⟩]
      = Except.error "PERIPH_A" ∧
    generate_peripherals (fun _ => false)
        [⟨"PERIPH_A", 1024, some ⟨0, 16⟩, [⟨"R0", "", 0, some 32⟩]⟩,
         ⟨"PERIPH_B", 2048, some ⟨0, 16⟩, [⟨"R0", "", 0, some 32⟩]⟩]
      = Except.ok ["PERIPH_A", "PERIPH_B"] := by
  exact ⟨rfl, rfl⟩

/-- Counterexample to claim C2 as stated. A register with an explicit
size of 0 bits is set, so the claimed footprint uses 0 bits for it; the
code tests truthiness, falls back to the default of 32 bits and computes
4 bytes instead of 0. -/
theorem c2_counterexample :
    calculate_peripheral_size ⟨"P", 0, none, [⟨"R", "", 0, some 0⟩]⟩ 32 = 4 ∧
    claimed_footprint ⟨"P", 0, none, [⟨"R", "", 0, some 0⟩]⟩ 32 = 0 := by
  decide

/-- Claim C2, amended: for a peripheral with a nonempty register list
the computed footprint is the maximum over its registers of
address_offset plus effective size in bytes, where the effective size is
the explicit size when set and nonzero and the default otherwise; the
example with registers at offsets 0 of size 32, 4 of size 16 and 6 of
default size under default width 32 yields 10 bytes, and the declared
address block never influences the footprint. -/
theorem c2_footprint (p : Peripheral) (d : Nat) (h : p.registers ≠ []) :
    calculate_peripheral_size p d =
      (p.registers.map
        (fun r => r.address_offset + register_effective_size r d / 8)).foldr max 0 ∧
    (∀ ab, calculate_peripheral_size ⟨p.name, p.base_address, ab, p.registers⟩ d =
      calculate_peripheral_size p d) ∧
    calculate_peripheral_size ⟨"P", 0, none,
      [⟨"R0", "", 0, some 32⟩, ⟨"R1", "", 4, some 16⟩, ⟨"R2", "", 6, none⟩]⟩ 32 = 10 := by
  refine ⟨?_, fun ab => rfl, by decide⟩
  unfold calculate_peripheral_size
  rw [foldl_max_eq]
  omega

/-- Witness for c2_footprint at the example peripheral of the claim. -/
theorem c2_footprint_witness :
    calculate_peripheral_size ⟨"P", 0, none,
        [⟨"R0", "", 0, some 32⟩, ⟨"R1", "", 4, some 16⟩, ⟨"R2", "", 6, none⟩]⟩ 32 =
      (([⟨"R0", "", 0, some 32⟩, ⟨"R1", "", 4, some 16⟩,
          ⟨"R2", "", 6, none⟩] : List Register).map
        (fun r => r.address_offset + register_effective_size r 32 / 8)).foldr max 0 ∧
    calculate_peripheral_size ⟨"P", 0, none,
        [⟨"R0", "", 0, some 32⟩, ⟨"R1", "", 4, some 16⟩, ⟨"R2", "", 6, none⟩]⟩ 32 = 10 := by
  have h := c2_footprint ⟨"P", 0, none,
    [⟨"R0", "", 0, some 32⟩, ⟨"R1", "", 4, some 16⟩, ⟨"R2", "", 6, none⟩]⟩ 32 (by decide)
  exact ⟨h.1, h.2.2⟩

/-- Counterexample to claim C3 as stated. An effective bit width of 9 is
none of 8, 16, 32 and 64, yet 9 divided by 8 is 1, so the code selects
the byte type rather than the default 4 byte unsigned integer. -/
theorem c3_counterexample :
    register_effective_size ⟨"R", "", 0, some 9⟩ 32 = 9 ∧
    (9 ≠ 8 ∧ 9 ≠ 16 ∧ 9 ≠ 32 ∧ 9 ≠ 64) ∧
    register_r_type 9 = DataType.ByteDataType ∧
    DataType.ByteDataType ≠ DataType.UnsignedIntegerDataType := by
  decide

/-- Claim C3, amended: the width class is selected by exact byte match
on the floor of effective_size_bits divided by 8: quotient 1 selects
byte, quotient 2 short, quotient 8 long long, and every other quotient
the default 4 byte unsigned integer; hence bit widths 8, 16, 32, 64, 24
select byte, short, default, long long and default respectively. -/
theorem c3_width_class (s : Nat) :
    (register_r_type s = DataType.ByteDataType ↔ s / 8 = 1) ∧
    (register_r_type s = DataType.UnsignedShortDataType ↔ s / 8 = 2) ∧
    (register_r_type s = DataType.UnsignedLongLongDataType ↔ s / 8 = 8) ∧
    (register_r_type s = DataType.UnsignedIntegerDataType ↔
      (s / 8 ≠ 1 ∧ s / 8 ≠ 2 ∧ s / 8 ≠ 8)) ∧
    register_r_type 8 = DataType.ByteDataType ∧
    register_r_type 16 = DataType.UnsignedShortDataType ∧
    register_r_type 32 = DataType.UnsignedIntegerDataType ∧
    register_r_type 64 = DataType.UnsignedLongLongDataType ∧
    register_r_type 24 = DataType.UnsignedIntegerDataType := by
  refine ⟨?_, ?_, ?_, ?_, rfl, rfl, rfl, rfl, rfl⟩ <;>
    (unfold register_r_type; dsimp only; split_ifs <;> simp_all)

/-- Claim C9: a register whose explicit size is present but equal to 0
bits is treated exactly as a register with no explicit size, in the
footprint computation and in the width class selection, because line 58
and line 179 test truthiness of the size attribute rather than presence. -/
theorem c9_zero_size (r : Register) (d : Nat) (h : r._size = some 0) :
    (∀ (nm : String) (ba : Nat) (ab : Option AddressBlock) (rs1 rs2 : List Register),
      calculate_peripheral_size ⟨nm, ba, ab, rs1 ++ r :: rs2⟩ d =
        calculate_peripheral_size ⟨nm, ba, ab, rs1 ++ { r with _size := none } :: rs2⟩ d) ∧
    register_effective_size r d = d ∧
    register_r_type (register_effective_size r d) =
      register_r_type (register_effective_size { r with _size := none } d) := by
  have heff : register_effective_size r d = d := by
    unfold register_effective_size
    rw [h]
    rfl
  have heff2 : register_effective_size { r with _size := none } d = d := rfl
  refine ⟨?_, heff, by rw [heff, heff2]⟩
  intro nm ba ab rs1 rs2
  unfold calculate_peripheral_size
  dsimp only
  rw [List.foldl_append, List.foldl_append]
  simp only [List.foldl_cons]
  rw [heff, heff2]

/-- Witness for c9_zero_size at a concrete register with explicit size 0. -/
theorem c9_zero_size_witness :
    ((⟨"R", "", 4, some 0⟩ : Register)._size = some 0) ∧
    calculate_peripheral_size ⟨"P", 0, none, [] ++ (⟨"R", "", 4, some 0⟩ : Register) :: []⟩ 32 =
      calculate_peripheral_size
        ⟨"P", 0, none, [] ++ ({ (⟨"R", "", 4, some 0⟩ : Register) with _size := none }) :: []⟩ 32 ∧
    register_effective_size ⟨"R", "", 4, some 0⟩ 32 = 32 := by
  have h := c9_zero_size ⟨"R", "", 4, some 0⟩ 32 rfl
  exact ⟨rfl, h.1 "P" 0 none [] [], h.2.1⟩

/-- Claim C10: the memory region construction loop does not skip a
peripheral that has neither an address block nor registers. It appends a
region whose end is the stale end value of the previously processed
peripheral, and when no previous peripheral ever bound end, the append
raises a NameError instead of producing an interval. -/
theorem c10_stale_end (d : Nat) (p : Peripheral) (ps : List Peripheral)
    (h1 : p.address_block = none) (h2 : p.registers = [])
    (h3 : p.name ≠ "_INTERRUPTS") :
    (∀ e, memory_regions_loop d (p :: ps) (some e) =
        (memory_regions_loop d ps (some e)).map
          (fun rest => MemoryRegion.mk p.name p.base_address e :: rest)) ∧
    memory_regions_loop d (p :: ps) none =
      Except.error "NameError: end is not defined" := by
  constructor
  · intro e
    simp [memory_regions_loop, h1, h2, h3]
  · simp [memory_regions_loop, h1, h2, h3]

/-- Witness for c10_stale_end at a concrete empty peripheral. -/
theorem c10_stale_end_witness :
    ((⟨"P0", 100, none, []⟩ : Peripheral).address_block = none) ∧
    ((⟨"P0", 100, none, []⟩ : Peripheral).registers = []) ∧
    memory_regions_loop 32 [⟨"P0", 100, none, []⟩] (some 7) =
      (memory_regions_loop 32 [] (some 7)).map
        (fun rest => MemoryRegion.mk "P0" 100 7 :: rest) ∧
    memory_regions_loop 32 [⟨"P0", 100, none, []⟩] none =
      Except.error "NameError: end is not defined" := by
  have h := c10_stale_end 32 ⟨"P0", 100, none, []⟩ [] rfl rfl (by decide)
  exact ⟨rfl, rfl, h.1 7, h.2⟩

/-- Claim C4: for every input list of intervals each satisfying start ≤
end, the set of addresses covered by the output of
reduce_memory_regions equals the set covered by the input. -/
theorem c4_coverage (rs : List MemoryRegion) (h : ∀ r ∈ rs, r.start ≤ r.end_) :
    ∀ a, covered a (reduce_memory_regions rs) ↔ covered a rs := by
  intro a
  exact covered_reduce rs a

/-- Witness for c4_coverage on a concrete pair of overlapping intervals,
at the address 12. -/
theorem c4_coverage_witness :
    ((⟨"A", 0, 10⟩ : MemoryRegion).start ≤ (⟨"A", 0, 10⟩ : MemoryRegion).end_) ∧
    ((⟨"B", 5, 15⟩ : MemoryRegion).start ≤ (⟨"B", 5, 15⟩ : MemoryRegion).end_) ∧
    (covered 12 (reduce_memory_regions [⟨"A", 0, 10⟩, ⟨"B", 5, 15⟩]) ↔
      covered 12 [⟨"A", 0, 10⟩, ⟨"B", 5, 15⟩]) := by
  exact ⟨by decide, by decide, c4_coverage [⟨"A", 0, 10⟩, ⟨"B", 5, 15⟩] (by decide) 12⟩

/-- Claim C5: on wellformed input, any two output intervals at distinct
positions neither overlap nor touch: when the first starts no later than
the second, it also ends strictly before the second starts. -/
theorem c5_disjointness (rs : List MemoryRegion) (h : ∀ r ∈ rs, r.start ≤ r.end_) :
    ∀ k l, k < (reduce_memory_regions rs).length →
      l < (reduce_memory_regions rs).length → k ≠ l →
      ((reduce_memory_regions rs).getD k default).start ≤
        ((reduce_memory_regions rs).getD l default).start →
      ((reduce_memory_regions rs).getD k default).end_ <
        ((reduce_memory_regions rs).getD l default).start := by
  intro k l hk hl hkl hle
  have hov := firstMerge_eq_none (firstMerge_reduce rs) k l hk hl hkl
  have hvl := valid_reduce rs h _ ((mem_iff_getD _ default _).mpr ⟨l, hl, rfl⟩)
  unfold overlapsTouch at hov
  simp only [Bool.not_eq_false', Bool.or_eq_true, decide_eq_true_eq] at hov
  omega

/-- Witness for c5_disjointness on two concrete separated intervals. -/
theorem c5_disjointness_witness :
    ((⟨"A", 0, 10⟩ : MemoryRegion).start ≤ (⟨"A", 0, 10⟩ : MemoryRegion).end_) ∧
    ((⟨"B", 20, 30⟩ : MemoryRegion).start ≤ (⟨"B", 20, 30⟩ : MemoryRegion).end_) ∧
    ((reduce_memory_regions [⟨"A", 0, 10⟩, ⟨"B", 20, 30⟩]).getD 0 default).end_ <
      ((reduce_memory_regions [⟨"A", 0, 10⟩, ⟨"B", 20, 30⟩]).getD 1 default).start := by
  have hred : reduce_memory_regions [(⟨"A", 0, 10⟩ : MemoryRegion), ⟨"B", 20, 30⟩] =
      [⟨"A", 0, 10⟩, ⟨"B", 20, 30⟩] := reduce_eq_of_none (by decide)
  refine ⟨by decide, by decide, ?_⟩
  exact c5_disjointness [⟨"A", 0, 10⟩, ⟨"B", 20, 30⟩] (by decide) 0 1
    (by rw [hred]; decide) (by rw [hred]; decide) (by decide) (by rw [hred]; decide)

/-- Claim C6: two regions are merged exactly when neither lies strictly
before the other, so intervals that merely touch at an endpoint are
merged; the intervals from 0 to 10 and from 10 to 20 reduce to the
single interval from 0 to 20. -/
theorem c6_touching_merge :
    (∀ r1 r2 : MemoryRegion,
      overlapsTouch r1 r2 = true ↔ ¬(r1.end_ < r2.start ∨ r2.end_ < r1.start)) ∧
    reduce_memory_regions [⟨"A", 0, 10⟩, ⟨"B", 10, 20⟩] = [⟨"A_B", 0, 20⟩] := by
  constructor
  · intro r1 r2
    unfold overlapsTouch
    simp [not_or]
  · have h1 : firstMerge [(⟨"A", 0, 10⟩ : MemoryRegion), ⟨"B", 10, 20⟩] =
        some (0, 1) := by decide
    rw [reduce_eq_of_some h1]
    have h2 : mergeAt [(⟨"A", 0, 10⟩ : MemoryRegion), ⟨"B", 10, 20⟩] 0 1 =
        [⟨"A_B", 0, 20⟩] := by decide
    rw [h2]
    exact reduce_eq_of_none (by decide)

/-- Claim C7: reduce_memory_regions is idempotent; its output contains no
overlapping or touching pair, so a second run performs no merge. -/
theorem c7_idempotent (rs : List MemoryRegion) (h : ∀ r ∈ rs, r.start ≤ r.end_) :
    reduce_memory_regions (reduce_memory_regions rs) = reduce_memory_regions rs :=
  reduce_eq_of_none (firstMerge_reduce rs)

/-- Witness for c7_idempotent on a concrete pair of overlapping intervals. -/
theorem c7_idempotent_witness :
    ((⟨"A", 0, 10⟩ : MemoryRegion).start ≤ (⟨"A", 0, 10⟩ : MemoryRegion).end_) ∧
    ((⟨"B", 5, 15⟩ : MemoryRegion).start ≤ (⟨"B", 5, 15⟩ : MemoryRegion).end_) ∧
    reduce_memory_regions (reduce_memory_regions [⟨"A", 0, 10⟩, ⟨"B", 5, 15⟩]) =
      reduce_memory_regions [⟨"A", 0, 10⟩, ⟨"B", 5, 15⟩] := by
  exact ⟨by decide, by decide, c7_idempotent [⟨"A", 0, 10⟩, ⟨"B", 5, 15⟩] (by decide)⟩

/-- Claim C8: every merge step removes exactly one interval, so the list
length strictly decreases on each merge, and the number of merge steps
performed by reduce_memory_regions is bounded by the input length. The
function itself is total, which is the termination statement. -/
theorem c8_termination (rs : List MemoryRegion) :
    (∀ i j, firstMerge rs = some (i, j) →
      (mergeAt rs i j).length + 1 = rs.length) ∧
    reduce_steps rs ≤ rs.length := by
  exact ⟨fun i j h => length_mergeAt h, reduce_steps_le rs⟩

/-- Witness for c8_termination on a concrete mergeable pair. -/
theorem c8_termination_witness :
    firstMerge [(⟨"A", 0, 10⟩ : MemoryRegion), ⟨"B", 5, 15⟩] = some (0, 1) ∧
    (mergeAt [(⟨"A", 0, 10⟩ : MemoryRegion), ⟨"B", 5, 15⟩] 0 1).length + 1 =
      ([(⟨"A", 0, 10⟩ : MemoryRegion), ⟨"B", 5, 15⟩] : List MemoryRegion).length ∧
    reduce_steps [(⟨"A", 0, 10⟩ : MemoryRegion), ⟨"B", 5, 15⟩] ≤ 2 := by
  have h := c8_termination [(⟨"A", 0, 10⟩ : MemoryRegion), ⟨"B", 5, 15⟩]
  exact ⟨by decide, h.1 0 1 (by decide), h.2⟩
